import Mathlib

/-
Shallow embedding of scripts/extract-pdf-text.py.

The program normalizes per-page text extracted from a PDF, concatenates the
pages into one text file, and builds a keyword index over a fixed term list.
Strings are modelled as Lean strings (lists of characters); the regular
expression substitutions of normalize_text are modelled by run-collapsing
recursions with the same leftmost-longest semantics; Python str.strip and
str.lstrip are modelled by dropping whitespace characters at the ends.
-/

/-- Whitespace test used by Python str.strip and str.lstrip: the ASCII
whitespace characters together with the further code points Python treats as
whitespace (file separators, NEL, NBSP and the Unicode space separators). -/
def pyIsSpace (c : Char) : Bool :=
  decide (c = ' ' ∨ c = '\t' ∨ c = '\n' ∨ c = '\r' ∨ c.toNat = 11 ∨ c.toNat = 12 ∨
    (28 ≤ c.toNat ∧ c.toNat ≤ 31) ∨ c.toNat = 133 ∨ c.toNat = 160 ∨ c.toNat = 5760 ∨
    (8192 ≤ c.toNat ∧ c.toNat ≤ 8202) ∨ c.toNat = 8232 ∨ c.toNat = 8233 ∨
    c.toNat = 8239 ∨ c.toNat = 8287 ∨ c.toNat = 12288)

/-- Python str.strip: drop whitespace from both ends. -/
def pyStrip (l : List Char) : List Char :=
  ((l.dropWhile pyIsSpace).reverse.dropWhile pyIsSpace).reverse

/-- Python str.lstrip: drop whitespace from the front. -/
def pyLStrip (l : List Char) : List Char := l.dropWhile pyIsSpace

/-- text.replace of carriage-return line-feed by line-feed: the left-to-right
non-overlapping replacement done by Python str.replace. -/
def replaceCRLF : List Char → List Char
  | [] => []
  | [c] => [c]
  | a :: b :: rest =>
    if a = '\r' ∧ b = '\n' then '\n' :: replaceCRLF rest
    else a :: replaceCRLF (b :: rest)

/-- text.replace of a lone carriage return by a line feed (character-wise,
since the pattern has length one). -/
def crToNl (c : Char) : Char := if c = '\r' then '\n' else c

/-- re.sub collapsing each maximal run of spaces and tabs to one space.
The Boolean argument records whether the scanner is inside such a run. -/
def collapseHWSAux : Bool → List Char → List Char
  | _, [] => []
  | inRun, c :: rest =>
    if c = ' ' ∨ c = '\t' then
      if inRun then collapseHWSAux true rest else ' ' :: collapseHWSAux true rest
    else c :: collapseHWSAux false rest

/-- Output for a completed run of k newlines: runs of three or more collapse
to two, shorter runs are kept. -/
def emitNL (k : Nat) : List Char := List.replicate (min k 2) '\n'

/-- re.sub collapsing each maximal run of three or more newlines to two.
The counter records the number of newlines of the run being scanned. -/
def collapseNLAux : Nat → List Char → List Char
  | k, [] => emitNL k
  | k, c :: rest =>
    if c = '\n' then collapseNLAux (k + 1) rest
    else emitNL k ++ c :: collapseNLAux 0 rest

/-- The stripped body of normalize_text: convert line endings, collapse
horizontal whitespace, cap newline runs, strip. -/
def normCore (l : List Char) : List Char :=
  pyStrip (collapseNLAux 0 (collapseHWSAux false ((replaceCRLF l).map crToNl)))

/-- normalize_text on the character list: the stripped body with one newline
appended. -/
def normData (l : List Char) : List Char :=
  normCore l ++ ['\n']

/-- normalize_text of the script. -/
def normalize_text (s : String) : String := String.mk (normData s.data)

/-- Python str.lower on one character, character-wise (exact on the ASCII
letters that appear in the fixed term list). -/
def pyToLower (c : Char) : Char :=
  if 'A' ≤ c ∧ c ≤ 'Z' then Char.ofNat (c.toNat + 32) else c

/-- Python str.lower on a character list. -/
def pyLower (l : List Char) : List Char := l.map pyToLower

/-- Python str.find: the least offset at which pat occurs in the list, if
any.  The membership test of the script is pyFind being some value. -/
def pyFind (pat : List Char) : List Char → Option Nat
  | [] => if pat = [] then some 0 else none
  | c :: rest =>
    if pat.isPrefixOf (c :: rest) then some 0
    else (pyFind pat rest).map (· + 1)

/-- The fixed term list of main. -/
def index_terms : List String :=
  ["AutomationElement",
   "AutomationPattern",
   "InvokePattern",
   "ValuePattern",
   "SelectionPattern",
   "TextPattern",
   "TransformPattern",
   "WindowPattern",
   "AutomationEvent",
   "AutomationProperty",
   "AutomationFocusChangedEventHandler",
   "StructureChangedEventHandler",
   "Automation.Add",
   "Automation.Remove",
   "TreeWalker",
   "Condition",
   "PropertyCondition",
   "AndCondition",
   "OrCondition",
   "CacheRequest",
   "BoundingRectangle",
   "FromHandle",
   "FromPoint",
   "ElementFromHandle",
   "ElementFromPoint"]

/-- snippet.replace of newline by space (character-wise). -/
def nlToSpace (c : Char) : Char := if c = '\n' then ' ' else c

/-- The hit string recorded for a term found at offset idx of the normalized
page text: the window from 80 before to 160 after the offset, clamped to the
text, newlines replaced by spaces, stripped, and formatted. -/
def mkHit (i : Nat) (term : String) (text : List Char) (idx : Nat) : String :=
  let start := idx - 80
  let stop := min text.length (idx + 160)
  let snippet := pyStrip (((text.drop start).take (stop - start)).map nlToSpace)
  "Page " ++ (toString i ++ (": " ++ (term ++ (": " ++ String.mk snippet))))

/-- The index hits one page contributes: for each term of the fixed list, at
most one hit, recorded when the lowered term occurs in the lowered text, at
the offset of its first occurrence. -/
def indexPage (i : Nat) (pageText : String) : List String :=
  index_terms.filterMap fun term =>
    (pyFind (pyLower term.data) (pyLower pageText.data)).map fun idx =>
      mkHit i term pageText.data idx

/-- The chunk one non-blank page contributes to the full-text output: the
page marker followed by the normalized text. -/
def mkChunk (i : Nat) (raw : String) : String :=
  "\n\n=== Page " ++ toString i ++ " ===\n\n" ++ normalize_text raw

/-- The page loop of main, starting at ordinal i: pages whose raw text
strips to nothing are skipped; the others contribute their chunk and their
index hits, in page order. -/
def processAux : Nat → List String → List String × List String
  | _, [] => ([], [])
  | i, raw :: rest =>
    let p := processAux (i + 1) rest
    if pyStrip raw.data = [] then p
    else (mkChunk i raw :: p.1, indexPage i (normalize_text raw) ++ p.2)

/-- The page loop of main over the whole document (ordinals start at 1). -/
def processPages (pages : List String) : List String × List String :=
  processAux 1 pages

/-- Code-point lexicographic order on character lists, as Python compares
strings. -/
def charListLe : List Char → List Char → Bool
  | [], _ => true
  | _ :: _, [] => false
  | a :: as, b :: bs =>
    if a.toNat < b.toNat then true
    else if b.toNat < a.toNat then false
    else charListLe as bs

/-- Python string order. -/
def strLe (a b : String) : Prop := charListLe a.data b.data = true

instance (a b : String) : Decidable (strLe a b) :=
  inferInstanceAs (Decidable (charListLe a.data b.data = true))

/-- sorted of the set of hits: remove duplicates, sort lexicographically. -/
def sortedHits (hits : List String) : List String :=
  List.insertionSort strLe hits.dedup

/-- Python newline join of a list of strings. -/
def joinNL : List String → String
  | [] => ""
  | [s] => s
  | s :: t :: rest => s ++ "\n" ++ joinNL (t :: rest)

/-- Python empty-separator join: plain concatenation. -/
def strConcat : List String → String
  | [] => ""
  | s :: rest => s ++ strConcat rest

/-- Content written to the primary output file: the concatenated chunks,
left-stripped, with one newline appended. -/
def fullTextContent (pages : List String) : String :=
  String.mk (pyLStrip (strConcat (processPages pages).1).data ++ ['\n'])

/-- Content written to the index output file: the deduplicated hits, sorted,
joined with newlines, with one newline appended. -/
def indexFileContent (pages : List String) : String :=
  joinNL (sortedHits (processPages pages).2) ++ "\n"

/-- Pairing of a list with ordinals counted from a start value, as the
enumerate of the page loop does. -/
def enumFrom {α : Type} : Nat → List α → List (Nat × α)
  | _, [] => []
  | i, a :: as => (i, a) :: enumFrom (i + 1) as

/-- Failure outcomes of a run: the missing-input abort raised before any
parsing, and an extraction error propagating out of the page loop. -/
inductive RunError where
  | missingInput
  | extractError

/-- Sequential extraction of the raw page texts: the first library failure
aborts the whole run; a page the library answers with no text yields the
empty string. -/
def extractPages : List (Except Unit (Option String)) → Except Unit (List String)
  | [] => Except.ok []
  | r :: rs =>
    match r with
    | Except.error e => Except.error e
    | Except.ok o => (extractPages rs).map (fun ps => o.getD "" :: ps)

/-- File name of the primary output. -/
def outTxtName : String := "system.windows.automation-windowsdesktop-11.0.txt"

/-- File name of the index output. -/
def outIndexName : String := "system.windows.automation-windowsdesktop-11.0.index.txt"

/-- Trace model of main: the existence check precedes all parsing, and the
two file writes, in program order with their complete contents, happen only
when every page extracted successfully. -/
def mainModel (pdfExists : Bool) (raw : List (Except Unit (Option String))) :
    Except RunError (List (String × String)) :=
  if pdfExists = false then Except.error RunError.missingInput
  else
    match extractPages raw with
    | Except.error _ => Except.error RunError.extractError
    | Except.ok pages =>
      Except.ok [(outTxtName, fullTextContent pages), (outIndexName, indexFileContent pages)]

/-- No two adjacent spaces anywhere in the list. -/
def NoDbl : List Char → Prop
  | [] => True
  | [_] => True
  | a :: b :: l => ¬(a = ' ' ∧ b = ' ') ∧ NoDbl (b :: l)

/-- No three adjacent newlines anywhere in the list. -/
def NoTriple : List Char → Prop
  | [] => True
  | [_] => True
  | [_, _] => True
  | a :: b :: c :: l => ¬(a = '\n' ∧ b = '\n' ∧ c = '\n') ∧ NoTriple (b :: c :: l)

/- Basic facts about the whitespace predicate and stripping. -/

theorem pyIsSpace_nl : pyIsSpace '\n' = true := by decide

theorem pyIsSpace_false_facts {c : Char} (h : pyIsSpace c = false) :
    c ≠ ' ' ∧ c ≠ '\t' ∧ c ≠ '\n' ∧ c ≠ '\r' := by
  simp only [pyIsSpace, decide_eq_false_iff_not, not_or] at h
  exact ⟨h.1, h.2.1, h.2.2.1, h.2.2.2.1⟩

theorem dropWhile_exists_prepend (p : Char → Bool) :
    ∀ l : List Char, ∃ t, t ++ l.dropWhile p = l
  | [] => ⟨[], rfl⟩
  | c :: r => by
    by_cases h : p c
    · obtain ⟨t, ht⟩ := dropWhile_exists_prepend p r
      exact ⟨c :: t, by simp [List.dropWhile_cons, h, ht]⟩
    · exact ⟨[], by simp [List.dropWhile_cons, h]⟩

theorem head_dropWhile_false (p : Char → Bool) :
    ∀ l : List Char, ∀ c, (l.dropWhile p).head? = some c → p c = false
  | [], c => by simp
  | x :: r, c => by
    by_cases h : p x
    · simpa [List.dropWhile_cons, h] using head_dropWhile_false p r c
    · simp only [List.dropWhile_cons, if_neg h, List.head?_cons, Option.some.injEq]
      rintro rfl
      simpa using h

theorem pyStrip_append_eq_dropWhile (l : List Char) :
    ∃ t, pyStrip l ++ t = l.dropWhile pyIsSpace := by
  obtain ⟨t, ht⟩ := dropWhile_exists_prepend pyIsSpace (l.dropWhile pyIsSpace).reverse
  refine ⟨t.reverse, ?_⟩
  have h := congrArg List.reverse ht
  simpa [pyStrip, List.reverse_append] using h

theorem pyStrip_head_not_space {l : List Char} {c : Char}
    (h : (pyStrip l).head? = some c) : pyIsSpace c = false := by
  obtain ⟨t, ht⟩ := pyStrip_append_eq_dropWhile l
  apply head_dropWhile_false pyIsSpace l c
  rw [← ht]
  cases hs : pyStrip l with
  | nil => rw [hs] at h; simp at h
  | cons x xs =>
    rw [hs] at h
    simp only [List.head?_cons, Option.some.injEq] at h
    subst h
    simp

theorem pyStrip_last_not_space {l : List Char} {c : Char}
    (h : (pyStrip l).getLast? = some c) : pyIsSpace c = false := by
  unfold pyStrip at h
  rw [List.getLast?_reverse] at h
  exact head_dropWhile_false pyIsSpace _ _ h

theorem mem_pyStrip {l : List Char} {c : Char} (h : c ∈ pyStrip l) : c ∈ l := by
  obtain ⟨t, ht⟩ := pyStrip_append_eq_dropWhile l
  obtain ⟨s, hs⟩ := dropWhile_exists_prepend pyIsSpace l
  rw [← hs, ← ht]
  simp only [List.mem_append]
  exact Or.inr (Or.inl h)

theorem isPrefixOf_eq_true_iff :
    ∀ pat l : List Char, pat.isPrefixOf l = true ↔ ∃ t, pat ++ t = l
  | [], l => by simp [List.isPrefixOf]
  | a :: pat, [] => by simp [List.isPrefixOf]
  | a :: pat, b :: l => by
    simp only [List.isPrefixOf, Bool.and_eq_true, beq_iff_eq,
      isPrefixOf_eq_true_iff pat l, List.cons_append, List.cons.injEq]
    constructor
    · rintro ⟨rfl, t, rfl⟩; exact ⟨t, rfl, rfl⟩
    · rintro ⟨t, rfl, h⟩; exact ⟨rfl, t, h⟩

/- Structural lemmas for the adjacency predicates. -/

theorem NoDbl_cons_cons {a b : Char} {l : List Char} :
    NoDbl (a :: b :: l) ↔ ¬(a = ' ' ∧ b = ' ') ∧ NoDbl (b :: l) := Iff.rfl

theorem NoDbl_single (a : Char) : NoDbl [a] := trivial

theorem NoDbl_tail {a : Char} {l : List Char} (h : NoDbl (a :: l)) : NoDbl l := by
  cases l with
  | nil => trivial
  | cons b r => exact (NoDbl_cons_cons.mp h).2

theorem NoDbl_head_pair {a b : Char} {l : List Char}
    (h : NoDbl (a :: l)) (hb : l.head? = some b) : ¬(a = ' ' ∧ b = ' ') := by
  cases l with
  | nil => simp at hb
  | cons x r =>
    simp only [List.head?_cons, Option.some.injEq] at hb
    subst hb
    exact (NoDbl_cons_cons.mp h).1

theorem NoDbl_cons {a : Char} {l : List Char}
    (hp : ∀ b, l.head? = some b → ¬(a = ' ' ∧ b = ' ')) (h : NoDbl l) : NoDbl (a :: l) := by
  cases l with
  | nil => exact trivial
  | cons b r => exact NoDbl_cons_cons.mpr ⟨hp b rfl, h⟩

theorem NoDbl_cons_of_fst_ne {a : Char} {l : List Char}
    (ha : a ≠ ' ') (h : NoDbl l) : NoDbl (a :: l) :=
  NoDbl_cons (fun _ _ hc => ha hc.1) h

theorem NoDbl_append_left : ∀ (x y : List Char), NoDbl (x ++ y) → NoDbl x
  | [], _, _ => trivial
  | [a], _, _ => NoDbl_single a
  | a :: b :: x', y, h => by
    rw [List.cons_append, List.cons_append] at h
    have h' := NoDbl_cons_cons.mp h
    refine NoDbl_cons_cons.mpr ⟨h'.1, NoDbl_append_left (b :: x') y ?_⟩
    rw [List.cons_append]
    exact h'.2

theorem NoDbl_append_right : ∀ (x y : List Char), NoDbl (x ++ y) → NoDbl y
  | [], _, h => h
  | a :: x', y, h => NoDbl_append_right x' y (NoDbl_tail (by rwa [List.cons_append] at h))

theorem NoTriple_cons₃ {a b c : Char} {l : List Char} :
    NoTriple (a :: b :: c :: l) ↔
      ¬(a = '\n' ∧ b = '\n' ∧ c = '\n') ∧ NoTriple (b :: c :: l) := Iff.rfl

theorem NoTriple_pair (a b : Char) : NoTriple [a, b] := trivial

theorem NoTriple_single (a : Char) : NoTriple [a] := trivial

theorem NoTriple_tail {a : Char} {l : List Char} (h : NoTriple (a :: l)) : NoTriple l := by
  cases l with
  | nil => trivial
  | cons b r =>
    cases r with
    | nil => trivial
    | cons c r' => exact (NoTriple_cons₃.mp h).2

theorem NoTriple_cons_fst {a : Char} {l : List Char}
    (ha : a ≠ '\n') (h : NoTriple l) : NoTriple (a :: l) := by
  cases l with
  | nil => trivial
  | cons b r =>
    cases r with
    | nil => exact NoTriple_pair a b
    | cons c r' => exact NoTriple_cons₃.mpr ⟨fun hc => ha hc.1, h⟩

theorem NoTriple_cons_snd {a b : Char} {l : List Char}
    (hb : b ≠ '\n') (h : NoTriple (b :: l)) : NoTriple (a :: b :: l) := by
  cases l with
  | nil => exact NoTriple_pair a b
  | cons c r => exact NoTriple_cons₃.mpr ⟨fun hc => hb hc.2.1, h⟩

theorem NoTriple_append_left : ∀ (x y : List Char), NoTriple (x ++ y) → NoTriple x
  | [], _, _ => trivial
  | [a], _, _ => NoTriple_single a
  | [a, b], _, _ => NoTriple_pair a b
  | a :: b :: c :: x', y, h => by
    rw [List.cons_append, List.cons_append, List.cons_append] at h
    have h' := NoTriple_cons₃.mp h
    refine NoTriple_cons₃.mpr ⟨h'.1, NoTriple_append_left (b :: c :: x') y ?_⟩
    rw [List.cons_append, List.cons_append]
    exact h'.2

theorem NoTriple_append_right : ∀ (x y : List Char), NoTriple (x ++ y) → NoTriple y
  | [], _, h => h
  | a :: x', y, h => NoTriple_append_right x' y (NoTriple_tail (by rwa [List.cons_append] at h))

theorem NoDbl_replicate_nl : ∀ m, NoDbl (List.replicate m '\n')
  | 0 => trivial
  | m + 1 => by
    rw [List.replicate_succ]
    exact NoDbl_cons_of_fst_ne (by decide) (NoDbl_replicate_nl m)

theorem NoDbl_replicate_nl_append : ∀ m (x : List Char), NoDbl x →
    NoDbl (List.replicate m '\n' ++ x)
  | 0, x, h => h
  | m + 1, x, h => by
    rw [List.replicate_succ, List.cons_append]
    exact NoDbl_cons_of_fst_ne (by decide) (NoDbl_replicate_nl_append m x h)

theorem NoTriple_replicate_nl {m : Nat} (hm : m ≤ 2) : NoTriple (List.replicate m '\n') := by
  interval_cases m
  · trivial
  · exact NoTriple_single '\n'
  · exact NoTriple_pair '\n' '\n'

theorem NoTriple_replicate_nl_cons {m : Nat} {c : Char} {x : List Char}
    (hm : m ≤ 2) (hc : c ≠ '\n') (h : NoTriple (c :: x)) :
    NoTriple (List.replicate m '\n' ++ c :: x) := by
  interval_cases m
  · exact h
  · exact NoTriple_cons_snd hc h
  · show NoTriple ('\n' :: '\n' :: c :: x)
    cases x with
    | nil => exact NoTriple_cons₃.mpr ⟨fun hh => hc hh.2.2, NoTriple_cons_snd hc h⟩
    | cons d r => exact NoTriple_cons₃.mpr ⟨fun hh => hc hh.2.2, NoTriple_cons_snd hc h⟩

/- Properties of the normalization pipeline stages. -/

theorem emitNL_zero : emitNL 0 = [] := rfl

theorem emitNL_one : emitNL 1 = ['\n'] := rfl

theorem emitNL_two : emitNL 2 = ['\n', '\n'] := rfl

theorem crToNl_ne_cr (c : Char) : crToNl c ≠ '\r' := by
  unfold crToNl
  by_cases h : c = '\r' <;> simp [h]

theorem mem_map_crToNl {x : List Char} {c : Char} (h : c ∈ x.map crToNl) : c ≠ '\r' := by
  obtain ⟨a, _, rfl⟩ := List.mem_map.mp h
  exact crToNl_ne_cr a

theorem mem_collapseHWSAux : ∀ (l : List Char) (b : Bool) (c : Char),
    c ∈ collapseHWSAux b l → c = ' ' ∨ c ∈ l
  | [], _, c, h => by simp [collapseHWSAux] at h
  | x :: r, b, c, h => by
    by_cases hx : x = ' ' ∨ x = '\t'
    · cases b with
      | true =>
        simp only [collapseHWSAux, if_pos hx, if_pos rfl] at h
        rcases mem_collapseHWSAux r true c h with h' | h'
        · exact Or.inl h'
        · exact Or.inr (List.mem_cons_of_mem x h')
      | false =>
        simp only [collapseHWSAux, if_pos hx] at h
        rcases List.mem_cons.mp h with rfl | h'
        · exact Or.inl rfl
        · rcases mem_collapseHWSAux r true c h' with h'' | h''
          · exact Or.inl h''
          · exact Or.inr (List.mem_cons_of_mem x h'')
    · simp only [collapseHWSAux, if_neg hx] at h
      rcases List.mem_cons.mp h with rfl | h'
      · exact Or.inr (List.mem_cons_self c r)
      · rcases mem_collapseHWSAux r false c h' with h'' | h''
        · exact Or.inl h''
        · exact Or.inr (List.mem_cons_of_mem x h'')

theorem mem_collapseNLAux : ∀ (l : List Char) (k : Nat) (c : Char),
    c ∈ collapseNLAux k l → c = '\n' ∨ c ∈ l
  | [], k, c, h => by
    simp only [collapseNLAux, emitNL] at h
    exact Or.inl (List.eq_of_mem_replicate h)
  | x :: r, k, c, h => by
    by_cases hx : x = '\n'
    · subst hx
      simp only [collapseNLAux, if_pos rfl] at h
      rcases mem_collapseNLAux r (k + 1) c h with h' | h'
      · exact Or.inl h'
      · exact Or.inr (List.mem_cons_of_mem _ h')
    · simp only [collapseNLAux, if_neg hx, List.mem_append, List.mem_cons, emitNL] at h
      rcases h with h' | rfl | h'
      · exact Or.inl (List.eq_of_mem_replicate h')
      · exact Or.inr (List.mem_cons_self c r)
      · rcases mem_collapseNLAux r 0 c h' with h'' | h''
        · exact Or.inl h''
        · exact Or.inr (List.mem_cons_of_mem x h'')

theorem head_collapseHWSAux_true : ∀ (l : List Char) (x : Char),
    (collapseHWSAux true l).head? = some x → ¬(x = ' ' ∨ x = '\t')
  | [], x, h => by simp [collapseHWSAux] at h
  | c :: r, x, h => by
    by_cases hc : c = ' ' ∨ c = '\t'
    · simp only [collapseHWSAux, if_pos hc, if_pos rfl] at h
      exact head_collapseHWSAux_true r x h
    · simp only [collapseHWSAux, if_neg hc, List.head?_cons, Option.some.injEq] at h
      subst h
      exact hc

theorem head_collapseNLAux_pos : ∀ (l : List Char) (k : Nat), 1 ≤ k →
    (collapseNLAux k l).head? = some '\n'
  | [], k, hk => by
    have : min k 2 = 1 ∨ min k 2 = 2 := by omega
    simp only [collapseNLAux, emitNL]
    rcases this with h | h <;> simp [h]
  | c :: r, k, hk => by
    by_cases hc : c = '\n'
    · subst hc
      simp only [collapseNLAux, if_pos rfl]
      exact head_collapseNLAux_pos r (k + 1) (by omega)
    · have : min k 2 = 1 ∨ min k 2 = 2 := by omega
      simp only [collapseNLAux, if_neg hc, emitNL]
      rcases this with h | h <;> simp [h]

theorem head_collapseNLAux_zero : ∀ l : List Char, (collapseNLAux 0 l).head? = l.head?
  | [] => rfl
  | c :: r => by
    by_cases hc : c = '\n'
    · subst hc
      simp only [collapseNLAux, if_pos rfl, List.head?_cons]
      exact head_collapseNLAux_pos r 1 (by omega)
    · simp [collapseNLAux, if_neg hc, emitNL_zero]

theorem NoDbl_collapseHWSAux : ∀ (l : List Char) (b : Bool), NoDbl (collapseHWSAux b l)
  | [], _ => trivial
  | c :: r, b => by
    by_cases hc : c = ' ' ∨ c = '\t'
    · cases b with
      | true =>
        simp only [collapseHWSAux, if_pos hc, if_pos rfl]
        exact NoDbl_collapseHWSAux r true
      | false =>
        simp only [collapseHWSAux, if_pos hc]
        refine NoDbl_cons ?_ (NoDbl_collapseHWSAux r true)
        intro d hd hcon
        exact head_collapseHWSAux_true r d hd (Or.inl hcon.2)
    · simp only [collapseHWSAux, if_neg hc]
      refine NoDbl_cons_of_fst_ne ?_ (NoDbl_collapseHWSAux r false)
      intro h
      exact hc (Or.inl h)

theorem not_tab_collapseHWSAux : ∀ (l : List Char) (b : Bool) (c : Char),
    c ∈ collapseHWSAux b l → c ≠ '\t'
  | [], _, c, h => by simp [collapseHWSAux] at h
  | x :: r, b, c, h => by
    by_cases hx : x = ' ' ∨ x = '\t'
    · cases b with
      | true =>
        simp only [collapseHWSAux, if_pos hx, if_pos rfl] at h
        exact not_tab_collapseHWSAux r true c h
      | false =>
        simp only [collapseHWSAux, if_pos hx] at h
        rcases List.mem_cons.mp h with rfl | h'
        · decide
        · exact not_tab_collapseHWSAux r true c h'
    · simp only [collapseHWSAux, if_neg hx] at h
      rcases List.mem_cons.mp h with rfl | h'
      · intro hcon
        exact hx (Or.inr hcon)
      · exact not_tab_collapseHWSAux r false c h'

theorem NoDbl_collapseNLAux : ∀ (l : List Char) (k : Nat), NoDbl l →
    NoDbl (collapseNLAux k l)
  | [], k, _ => by
    simp only [collapseNLAux, emitNL]
    exact NoDbl_replicate_nl _
  | c :: r, k, h => by
    by_cases hc : c = '\n'
    · subst hc
      simp only [collapseNLAux, if_pos rfl]
      exact NoDbl_collapseNLAux r (k + 1) (NoDbl_tail h)
    · simp only [collapseNLAux, if_neg hc, emitNL]
      refine NoDbl_replicate_nl_append _ _ ?_
      refine NoDbl_cons ?_ (NoDbl_collapseNLAux r 0 (NoDbl_tail h))
      intro d hd
      rw [head_collapseNLAux_zero r] at hd
      exact NoDbl_head_pair h hd

theorem NoTriple_collapseNLAux : ∀ (l : List Char) (k : Nat), NoTriple (collapseNLAux k l)
  | [], k => by
    simp only [collapseNLAux, emitNL]
    exact NoTriple_replicate_nl (Nat.min_le_right k 2)
  | c :: r, k => by
    by_cases hc : c = '\n'
    · subst hc
      simp only [collapseNLAux, if_pos rfl]
      exact NoTriple_collapseNLAux r (k + 1)
    · simp only [collapseNLAux, if_neg hc, emitNL]
      exact NoTriple_replicate_nl_cons (Nat.min_le_right k 2) hc
        (NoTriple_cons_fst hc (NoTriple_collapseNLAux r 0))

/- The pipeline stages are the identity on already-normalized text. -/

theorem replaceCRLF_noop : ∀ l : List Char, (∀ c ∈ l, c ≠ '\r') → replaceCRLF l = l
  | [], _ => rfl
  | [c], _ => rfl
  | a :: b :: rest, h => by
    have ha : a ≠ '\r' := h a (List.mem_cons_self a _)
    rw [show replaceCRLF (a :: b :: rest) =
        if a = '\r' ∧ b = '\n' then '\n' :: replaceCRLF rest
        else a :: replaceCRLF (b :: rest) from rfl]
    rw [if_neg (fun hc => ha hc.1)]
    rw [replaceCRLF_noop (b :: rest) (fun c hc => h c (List.mem_cons_of_mem a hc))]

theorem map_crToNl_noop (l : List Char) (h : ∀ c ∈ l, c ≠ '\r') : l.map crToNl = l := by
  induction l with
  | nil => rfl
  | cons a r ih =>
    have ha : a ≠ '\r' := h a (List.mem_cons_self a r)
    simp only [List.map_cons, crToNl, if_neg ha]
    rw [ih (fun c hc => h c (List.mem_cons_of_mem a hc))]

theorem collapseHWSAux_true_of_head {l : List Char}
    (h : ∀ d, l.head? = some d → ¬(d = ' ' ∨ d = '\t')) :
    collapseHWSAux true l = collapseHWSAux false l := by
  cases l with
  | nil => rfl
  | cons c r =>
    have hc := h c rfl
    simp [collapseHWSAux, if_neg hc]

theorem mem_of_head?_eq {l : List Char} {d : Char} (h : l.head? = some d) : d ∈ l := by
  cases l with
  | nil => simp at h
  | cons x r =>
    simp only [List.head?_cons, Option.some.injEq] at h
    subst h
    exact List.mem_cons_self x r

theorem collapseHWSAux_noop : ∀ l : List Char, (∀ c ∈ l, c ≠ '\t') → NoDbl l →
    collapseHWSAux false l = l
  | [], _, _ => rfl
  | c :: r, ht, hd => by
    by_cases hc : c = ' ' ∨ c = '\t'
    · have hc' : c = ' ' := hc.resolve_right (ht c (List.mem_cons_self c r))
      subst hc'
      have hstep : collapseHWSAux false (' ' :: r) = ' ' :: collapseHWSAux true r := by
        simp [collapseHWSAux]
      rw [hstep, collapseHWSAux_true_of_head, collapseHWSAux_noop r
        (fun d hdm => ht d (List.mem_cons_of_mem _ hdm)) (NoDbl_tail hd)]
      intro d hdh hor
      rcases hor with hsp | htb
      · exact NoDbl_head_pair hd hdh ⟨rfl, hsp⟩
      · exact ht d (List.mem_cons_of_mem _ (mem_of_head?_eq hdh)) htb
    · simp only [collapseHWSAux, if_neg hc]
      rw [collapseHWSAux_noop r (fun d hdm => ht d (List.mem_cons_of_mem _ hdm)) (NoDbl_tail hd)]

theorem collapseNLAux_noop_len : ∀ (n : Nat) (l : List Char), l.length ≤ n → NoTriple l →
    collapseNLAux 0 l = l
  | _, [], _, _ => rfl
  | 0, c :: r, h, _ => by simp at h
  | n + 1, c :: r, h, hnt => by
    by_cases hc : c = '\n'
    · subst hc
      cases r with
      | nil => rfl
      | cons d r2 =>
        by_cases hd : d = '\n'
        · subst hd
          cases r2 with
          | nil => rfl
          | cons e r3 =>
            have he : e ≠ '\n' := by
              intro h'
              exact (NoTriple_cons₃.mp hnt).1 ⟨rfl, rfl, h'⟩
            have hlen : r3.length ≤ n := by
              simp only [List.length_cons] at h
              omega
            have ih := collapseNLAux_noop_len n r3 hlen
              (NoTriple_tail (NoTriple_tail (NoTriple_tail hnt)))
            show collapseNLAux 1 ('\n' :: e :: r3) = '\n' :: '\n' :: e :: r3
            simp only [collapseNLAux, if_pos rfl, if_neg he, ih, emitNL_two]
            rfl
        · have hlen : r2.length ≤ n := by
            simp only [List.length_cons] at h
            omega
          have ih := collapseNLAux_noop_len n r2 hlen (NoTriple_tail (NoTriple_tail hnt))
          show collapseNLAux 1 (d :: r2) = '\n' :: d :: r2
          simp only [collapseNLAux, if_neg hd, ih, emitNL_one]
          rfl
    · have hlen : r.length ≤ n := by
        simp only [List.length_cons] at h
        omega
      have ih := collapseNLAux_noop_len n r hlen (NoTriple_tail hnt)
      simp only [collapseNLAux, if_neg hc, ih, emitNL_zero]
      rfl

theorem collapseNLAux_noop {l : List Char} (h : NoTriple l) : collapseNLAux 0 l = l :=
  collapseNLAux_noop_len l.length l (Nat.le_refl _) h

theorem pyStrip_pyStrip_append_nl (z : List Char) :
    pyStrip (pyStrip z ++ ['\n']) = pyStrip z := by
  cases hy : pyStrip z with
  | nil => rfl
  | cons x y' =>
    have hx : pyIsSpace x = false := pyStrip_head_not_space (by rw [hy]; rfl)
    have hlast : ∀ c, (x :: y').getLast? = some c → pyIsSpace c = false := by
      intro c hc
      exact pyStrip_last_not_space (by rw [hy]; exact hc)
    show pyStrip ((x :: y') ++ ['\n']) = x :: y'
    unfold pyStrip
    rw [List.cons_append, List.dropWhile_cons, if_neg (by rw [hx]; simp)]
    rw [show ((x :: (y' ++ ['\n'])).reverse) = '\n' :: (x :: y').reverse by
      simp [List.reverse_append]]
    rw [List.dropWhile_cons, if_pos (by rw [pyIsSpace_nl])]
    cases hr : (x :: y').reverse with
    | nil => simp at hr
    | cons d rr =>
      have hd : (x :: y').getLast? = some d := by
        rw [← List.head?_reverse, hr]
        rfl
      rw [List.dropWhile_cons, if_neg (by rw [hlast d hd]; simp)]
      rw [← hr, List.reverse_reverse]

/- Properties of the stripped pipeline output. -/

theorem NoDbl_pyStrip {l : List Char} (h : NoDbl l) : NoDbl (pyStrip l) := by
  obtain ⟨t, ht⟩ := pyStrip_append_eq_dropWhile l
  obtain ⟨s, hs⟩ := dropWhile_exists_prepend pyIsSpace l
  have h1 : NoDbl (l.dropWhile pyIsSpace) :=
    NoDbl_append_right s _ (by rw [hs]; exact h)
  exact NoDbl_append_left _ t (by rw [ht]; exact h1)

theorem NoTriple_pyStrip {l : List Char} (h : NoTriple l) : NoTriple (pyStrip l) := by
  obtain ⟨t, ht⟩ := pyStrip_append_eq_dropWhile l
  obtain ⟨s, hs⟩ := dropWhile_exists_prepend pyIsSpace l
  have h1 : NoTriple (l.dropWhile pyIsSpace) :=
    NoTriple_append_right s _ (by rw [hs]; exact h)
  exact NoTriple_append_left _ t (by rw [ht]; exact h1)

theorem normCore_no_cr (l : List Char) : ∀ c ∈ normCore l, c ≠ '\r' := by
  intro c hc
  have hc' := mem_pyStrip hc
  rcases mem_collapseNLAux _ _ _ hc' with rfl | h2
  · decide
  · rcases mem_collapseHWSAux _ _ _ h2 with rfl | h3
    · decide
    · exact mem_map_crToNl h3

theorem normCore_no_tab (l : List Char) : ∀ c ∈ normCore l, c ≠ '\t' := by
  intro c hc
  have hc' := mem_pyStrip hc
  rcases mem_collapseNLAux _ _ _ hc' with rfl | h2
  · decide
  · exact not_tab_collapseHWSAux _ _ _ h2

theorem NoDbl_normCore (l : List Char) : NoDbl (normCore l) :=
  NoDbl_pyStrip (NoDbl_collapseNLAux _ 0 (NoDbl_collapseHWSAux _ false))

theorem NoTriple_normCore (l : List Char) : NoTriple (normCore l) :=
  NoTriple_pyStrip (NoTriple_collapseNLAux _ 0)

theorem normCore_last_not_space {l : List Char} {c : Char}
    (h : (normCore l).getLast? = some c) : pyIsSpace c = false :=
  pyStrip_last_not_space h

theorem normCore_head_not_space {l : List Char} {c : Char}
    (h : (normCore l).head? = some c) : pyIsSpace c = false :=
  pyStrip_head_not_space h

theorem NoDbl_append_single : ∀ (y : List Char) {c : Char}, c ≠ ' ' → NoDbl y →
    NoDbl (y ++ [c])
  | [], c, _, _ => NoDbl_single c
  | a :: y', c, hc, h => by
    rw [List.cons_append]
    refine NoDbl_cons ?_ (NoDbl_append_single y' hc (NoDbl_tail h))
    intro b hb hcon
    cases y' with
    | nil =>
      simp only [List.nil_append, List.head?_cons, Option.some.injEq] at hb
      subst hb
      exact hc hcon.2
    | cons d r =>
      rw [List.cons_append, List.head?_cons, Option.some.injEq] at hb
      subst hb
      exact NoDbl_head_pair h rfl hcon

theorem NoTriple_append_nl : ∀ (y : List Char), NoTriple y →
    (∀ c, y.getLast? = some c → c ≠ '\n') → NoTriple (y ++ ['\n'])
  | [], _, _ => NoTriple_single '\n'
  | [a], _, _ => NoTriple_pair a '\n'
  | a :: b :: y', h, hl => by
    cases y' with
    | nil =>
      have hb : b ≠ '\n' :=
        hl b (by rw [List.getLast?_cons_cons, List.getLast?_singleton])
      exact NoTriple_cons₃.mpr ⟨fun hcon => hb hcon.2.1, NoTriple_pair b '\n'⟩
    | cons c0 r =>
      have hrec := NoTriple_append_nl (b :: c0 :: r) (NoTriple_tail h)
        (fun c hc => hl c (by rw [List.getLast?_cons_cons]; exact hc))
      simp only [List.cons_append] at hrec ⊢
      exact NoTriple_cons₃.mpr ⟨(NoTriple_cons₃.mp h).1, hrec⟩

/- Idempotence of normalization. -/

theorem normCore_normData (l : List Char) : normCore (normData l) = normCore l := by
  have hnc : ∀ c ∈ normCore l ++ ['\n'], c ≠ '\r' := by
    intro c hc
    rcases List.mem_append.mp hc with h | h
    · exact normCore_no_cr l c h
    · rw [List.mem_singleton] at h
      subst h
      decide
  have hnt : ∀ c ∈ normCore l ++ ['\n'], c ≠ '\t' := by
    intro c hc
    rcases List.mem_append.mp hc with h | h
    · exact normCore_no_tab l c h
    · rw [List.mem_singleton] at h
      subst h
      decide
  have hnd : NoDbl (normCore l ++ ['\n']) :=
    NoDbl_append_single _ (by decide) (NoDbl_normCore l)
  have hn3 : NoTriple (normCore l ++ ['\n']) :=
    NoTriple_append_nl _ (NoTriple_normCore l)
      (fun c hc hcon => by
        have := pyIsSpace_false_facts (normCore_last_not_space hc)
        exact this.2.2.1 hcon)
  show pyStrip (collapseNLAux 0 (collapseHWSAux false
      ((replaceCRLF (normCore l ++ ['\n'])).map crToNl))) = normCore l
  rw [replaceCRLF_noop _ hnc, map_crToNl_noop _ hnc, collapseHWSAux_noop _ hnt hnd,
    collapseNLAux_noop hn3]
  exact pyStrip_pyStrip_append_nl _

theorem normData_idem (l : List Char) : normData (normData l) = normData l := by
  show normCore (normData l) ++ ['\n'] = normData l
  rw [normCore_normData]
  rfl

theorem normData_no_cr (l : List Char) : ∀ c ∈ normData l, c ≠ '\r' := by
  intro c hc
  rcases List.mem_append.mp hc with h | h
  · exact normCore_no_cr l c h
  · rw [List.mem_singleton] at h
    subst h
    decide

theorem normData_no_tab (l : List Char) : ∀ c ∈ normData l, c ≠ '\t' := by
  intro c hc
  rcases List.mem_append.mp hc with h | h
  · exact normCore_no_tab l c h
  · rw [List.mem_singleton] at h
    subst h
    decide

theorem NoDbl_normData (l : List Char) : NoDbl (normData l) :=
  NoDbl_append_single _ (by decide) (NoDbl_normCore l)

theorem NoTriple_normData (l : List Char) : NoTriple (normData l) :=
  NoTriple_append_nl _ (NoTriple_normCore l)
    (fun _ hc hcon => (pyIsSpace_false_facts (normCore_last_not_space hc)).2.2.1 hcon)

theorem normData_getLast? (l : List Char) : (normData l).getLast? = some '\n' := by
  unfold normData
  exact List.getLast?_concat _

/-- C2: the normalizer converts carriage-return line endings to line feeds,
collapses runs of spaces and tabs to one space, caps newline runs at two
(one blank line), strips the ends, and appends exactly one newline; it is
total, the empty string yields a single newline, and the worked example of
the specification evaluates as stated. -/
theorem normalizer_contract :
    normalize_text "" = "\n" ∧
    normalize_text "a\r\nb\r\rc" = "a\nb\n\nc\n" ∧
    normalize_text "a \t  b" = "a b\n" ∧
    normalize_text "a\n\n\n\nb" = "a\n\nb\n" ∧
    normalize_text "  x\t " = "x\n" ∧
    normalize_text "a\rb" = "a\nb\n" ∧
    (∀ s : String, (normalize_text s).data.getLast? = some '\n') :=
  ⟨by decide, by decide, by decide, by decide, by decide, by decide,
   fun s => normData_getLast? s.data⟩

/-- C4: normalization is idempotent, and every normalized string is some
text with no trailing whitespace followed by exactly one newline. -/
theorem normalize_idempotent (s : String) :
    normalize_text (normalize_text s) = normalize_text s ∧
    ∃ y, (normalize_text s).data = y ++ ['\n'] ∧
      pyIsSpace (y.getLast?.getD 'x') = false := by
  constructor
  · show String.mk (normData (normData s.data)) = String.mk (normData s.data)
    rw [normData_idem]
  · refine ⟨normCore s.data, rfl, ?_⟩
    cases hlast : (normCore s.data).getLast? with
    | none => decide
    | some c => exact normCore_last_not_space hlast

/-- C10: the output of the normalizer contains no carriage return, no tab,
no two adjacent spaces, and no three adjacent newlines. -/
theorem normalize_output_invariants (s : String) :
    (∀ c ∈ (normalize_text s).data, c ≠ '\r') ∧
    (∀ c ∈ (normalize_text s).data, c ≠ '\t') ∧
    NoDbl (normalize_text s).data ∧
    NoTriple (normalize_text s).data :=
  ⟨normData_no_cr s.data, normData_no_tab s.data,
   NoDbl_normData s.data, NoTriple_normData s.data⟩

/-- C3 counterexample: the fixed term list does not have 27 entries. -/
theorem index_terms_length_ne_27 : ¬ index_terms.length = 27 := by decide

/-- C3 (amended): the fixed term list searched during indexing contains
exactly 25 literal terms. -/
theorem index_terms_length_eq_25 : index_terms.length = 25 := by decide

theorem processAux_all_blank : ∀ (pages : List String) (i : Nat),
    (∀ p ∈ pages, pyStrip p.data = []) → processAux i pages = ([], [])
  | [], _, _ => rfl
  | raw :: rest, i, h => by
    have hr : pyStrip raw.data = [] := h raw (List.mem_cons_self raw rest)
    have ih := processAux_all_blank rest (i + 1)
      (fun p hp => h p (List.mem_cons_of_mem raw hp))
    simp [processAux, hr, ih]

/-- C9: when every page's raw text is empty or whitespace-only (a zero-page
document included), the run still produces both outputs, each a single
newline. -/
theorem all_blank_outputs (pages : List String)
    (h : ∀ p ∈ pages, pyStrip p.data = []) :
    fullTextContent pages = "\n" ∧ indexFileContent pages = "\n" := by
  have hp : processPages pages = ([], []) := processAux_all_blank pages 1 h
  constructor
  · show String.mk (pyLStrip (strConcat (processPages pages).1).data ++ ['\n']) = "\n"
    rw [hp]
    decide
  · show joinNL (sortedHits (processPages pages).2) ++ "\n" = "\n"
    rw [hp]
    decide

/-- Witness for C9 at a concrete two-page all-blank document. -/
theorem all_blank_outputs_check :
    (∀ p ∈ ([" ", ""] : List String), pyStrip p.data = []) ∧
    fullTextContent [" ", ""] = "\n" ∧ indexFileContent [" ", ""] = "\n" :=
  ⟨by decide, (all_blank_outputs [" ", ""] (by decide)).1,
   (all_blank_outputs [" ", ""] (by decide)).2⟩

/-- C5: in the three-page scenario of the specification, only pages 1 and 3
contribute chunks (with their markers), the single index hit is page 1 for
the term AutomationElement, and page 3 yields no hit; in general a page
whose raw text strips to nothing contributes neither chunk nor hits. -/
theorem blank_page_scenario :
    (processPages ["hello AutomationElement world", "", "  nothing  of interest  "] =
      (["\n\n=== Page 1 ===\n\nhello AutomationElement world\n",
        "\n\n=== Page 3 ===\n\nnothing of interest\n"],
       ["Page 1: AutomationElement: hello AutomationElement world"])) ∧
    (∀ (i : Nat) (raw : String) (rest : List String), pyStrip raw.data = [] →
      processAux i (raw :: rest) = processAux (i + 1) rest) := by
  constructor
  · decide
  · intro i raw rest h
    simp [processAux, h]

/-- Witness for C5: a whitespace-only page is skipped while its ordinal is
still consumed. -/
theorem blank_page_scenario_check :
    pyStrip (String.data " \t ") = [] ∧
    processAux 5 [" \t ", "x"] = processAux 6 ["x"] :=
  ⟨by decide, blank_page_scenario.2 5 " \t " ["x"] (by decide)⟩

/-- C8: a missing input file fails the run before any write is performed;
with the file present, the two writes appear only when every page extracted
successfully, and then carry the fully assembled contents. -/
theorem main_write_discipline :
    (∀ raw, mainModel false raw = Except.error RunError.missingInput) ∧
    (∀ raw e, extractPages raw = Except.error e →
      mainModel true raw = Except.error RunError.extractError) ∧
    (∀ raw pages, extractPages raw = Except.ok pages →
      mainModel true raw =
        Except.ok [(outTxtName, fullTextContent pages),
          (outIndexName, indexFileContent pages)]) := by
  refine ⟨fun raw => rfl, ?_, ?_⟩
  · intro raw e h
    simp [mainModel, h]
  · intro raw pages h
    simp [mainModel, h]

/-- Witness for C8 at concrete one-page documents. -/
theorem main_write_discipline_check :
    mainModel false [] = Except.error RunError.missingInput ∧
    extractPages [Except.error ()] = Except.error () ∧
    mainModel true [Except.error ()] = Except.error RunError.extractError ∧
    extractPages [Except.ok (some "hi")] = Except.ok ["hi"] ∧
    mainModel true [Except.ok (some "hi")] =
      Except.ok [(outTxtName, fullTextContent ["hi"]),
        (outIndexName, indexFileContent ["hi"])] :=
  ⟨main_write_discipline.1 [], rfl,
   main_write_discipline.2.1 [Except.error ()] () rfl,
   rfl,
   main_write_discipline.2.2 [Except.ok (some "hi")] ["hi"] rfl⟩

/- The page loop as a declarative enumeration. -/

theorem processAux_eq_enum : ∀ (pages : List String) (i : Nat),
    processAux i pages =
      (((enumFrom i pages).filter (fun p => !(pyStrip p.2.data).isEmpty)).map
        (fun p => mkChunk p.1 p.2),
       (((enumFrom i pages).filter (fun p => !(pyStrip p.2.data).isEmpty)).map
        (fun p => indexPage p.1 (normalize_text p.2))).flatten)
  | [], i => rfl
  | raw :: rest, i => by
    have ih := processAux_eq_enum rest (i + 1)
    by_cases h : pyStrip raw.data = []
    · simp [processAux, enumFrom, ih, h, List.filter_cons]
    · simp [processAux, enumFrom, ih, h, List.filter_cons,
        List.isEmpty_iff]

theorem chain_lt_enumFrom : ∀ (l : List String) (i : Nat),
    List.Chain' (· < ·) ((enumFrom i l).map Prod.fst)
  | [], _ => List.chain'_nil
  | a :: as, i => by
    rw [show enumFrom i (a :: as) = (i, a) :: enumFrom (i + 1) as from rfl, List.map_cons]
    rw [List.chain'_cons']
    refine ⟨?_, chain_lt_enumFrom as (i + 1)⟩
    intro y hy
    cases as with
    | nil =>
      rw [show enumFrom (i + 1) ([] : List String) = [] from rfl] at hy
      simp at hy
    | cons b bs =>
      rw [show enumFrom (i + 1) (b :: bs) = (i + 1, b) :: enumFrom (i + 2) bs from rfl,
        List.map_cons, List.head?_cons, Option.mem_def, Option.some.injEq] at hy
      omega

/-- C7: the chunks of the page loop are exactly the marker-prefixed
normalized texts of the non-blank pages, enumerated in ascending page order
starting at 1, and the primary output is their concatenation,
left-stripped, with one newline appended. -/
theorem full_text_writer_contract (pages : List String) :
    (processPages pages).1 =
      ((enumFrom 1 pages).filter (fun p => !(pyStrip p.2.data).isEmpty)).map
        (fun p => mkChunk p.1 p.2) ∧
    List.Chain' (· < ·)
      (((enumFrom 1 pages).filter (fun p => !(pyStrip p.2.data).isEmpty)).map Prod.fst) ∧
    (∀ (i : Nat) (raw : String), mkChunk i raw =
      "\n\n=== Page " ++ toString i ++ " ===\n\n" ++ normalize_text raw) ∧
    fullTextContent pages =
      String.mk (pyLStrip (strConcat (processPages pages).1).data ++ ['\n']) := by
  refine ⟨?_, ?_, fun i raw => rfl, rfl⟩
  · exact congrArg Prod.fst (processAux_eq_enum pages 1)
  · exact List.Chain'.sublist (chain_lt_enumFrom pages 1)
      (List.Sublist.map Prod.fst (List.filter_sublist _))

/- The Python string order is total and transitive. -/

theorem charListLe_total : ∀ x y : List Char,
    charListLe x y = true ∨ charListLe y x = true
  | [], _ => Or.inl rfl
  | _ :: _, [] => Or.inr rfl
  | a :: as, b :: bs => by
    rcases Nat.lt_trichotomy a.toNat b.toNat with h | h | h
    · left
      simp [charListLe, h]
    · have g1 : charListLe (a :: as) (b :: bs) = charListLe as bs := by
        simp only [charListLe]
        rw [if_neg (by omega), if_neg (by omega)]
      have g2 : charListLe (b :: bs) (a :: as) = charListLe bs as := by
        simp only [charListLe]
        rw [if_neg (by omega), if_neg (by omega)]
      rw [g1, g2]
      exact charListLe_total as bs
    · right
      simp [charListLe, h]

theorem charListLe_trans : ∀ x y z : List Char,
    charListLe x y = true → charListLe y z = true → charListLe x z = true
  | [], _, _, _, _ => rfl
  | _ :: _, [], _, h, _ => by simp [charListLe] at h
  | _ :: _, _ :: _, [], _, h => by simp [charListLe] at h
  | a :: as, b :: bs, c :: cs, h1, h2 => by
    rcases Nat.lt_trichotomy a.toNat b.toNat with hab | hab | hab
    · rcases Nat.lt_trichotomy b.toNat c.toNat with hbc | hbc | hbc
      · simp [charListLe, show a.toNat < c.toNat by omega]
      · simp [charListLe, show a.toNat < c.toNat by omega]
      · simp only [charListLe] at h2
        rw [if_neg (by omega), if_pos hbc] at h2
        simp at h2
    · simp only [charListLe] at h1
      rw [if_neg (by omega), if_neg (by omega)] at h1
      rcases Nat.lt_trichotomy b.toNat c.toNat with hbc | hbc | hbc
      · simp [charListLe, show a.toNat < c.toNat by omega]
      · simp only [charListLe] at h2 ⊢
        rw [if_neg (by omega), if_neg (by omega)] at h2
        rw [if_neg (by omega), if_neg (by omega)]
        exact charListLe_trans as bs cs h1 h2
      · simp only [charListLe] at h2
        rw [if_neg (by omega), if_pos hbc] at h2
        simp at h2
    · simp only [charListLe] at h1
      rw [if_neg (by omega), if_pos hab] at h1
      simp at h1

instance : IsTotal String strLe :=
  ⟨fun a b => charListLe_total a.data b.data⟩

instance : IsTrans String strLe :=
  ⟨fun a b c => charListLe_trans a.data b.data c.data⟩

/-- C6: the index output is the deduplicated hit strings sorted in the
lexicographic order of the rendered strings, joined by newlines with one
trailing newline; the written list is duplicate-free, sorted, and contains
exactly the recorded hits. -/
theorem index_writer_contract (pages : List String) :
    indexFileContent pages = joinNL (sortedHits (processPages pages).2) ++ "\n" ∧
    List.Sorted strLe (sortedHits (processPages pages).2) ∧
    (sortedHits (processPages pages).2).Nodup ∧
    (∀ h : String, h ∈ sortedHits (processPages pages).2 ↔ h ∈ (processPages pages).2) := by
  refine ⟨rfl, List.sorted_insertionSort strLe _, ?_, ?_⟩
  · exact ((List.perm_insertionSort strLe _).symm.nodup (List.nodup_dedup _))
  · intro h
    simp [sortedHits, List.mem_dedup]

/- Correctness of the substring search. -/

theorem pyFind_some_isPrefixOf : ∀ (pat l : List Char) (n : Nat),
    pyFind pat l = some n → pat.isPrefixOf (l.drop n) = true
  | pat, [], n, h => by
    by_cases hp : pat = []
    · subst hp
      have h0 : pyFind ([] : List Char) [] = some 0 := rfl
      rw [h0, Option.some.injEq] at h
      subst h
      rfl
    · simp [pyFind, hp] at h
  | pat, c :: rest, n, h => by
    by_cases hp : pat.isPrefixOf (c :: rest)
    · simp only [pyFind, if_pos hp, Option.some.injEq] at h
      subst h
      exact hp
    · simp only [pyFind, if_neg hp, Option.map_eq_some'] at h
      obtain ⟨m, hm, rfl⟩ := h
      rw [List.drop_succ_cons]
      exact pyFind_some_isPrefixOf pat rest m hm

theorem pyFind_some_least : ∀ (pat l : List Char) (n : Nat),
    pyFind pat l = some n → ∀ j, j < n → pat.isPrefixOf (l.drop j) = false
  | pat, [], n, h, j, hj => by
    by_cases hp : pat = []
    · subst hp
      have h0 : pyFind ([] : List Char) [] = some 0 := rfl
      rw [h0, Option.some.injEq] at h
      omega
    · simp [pyFind, hp] at h
  | pat, c :: rest, n, h, j, hj => by
    by_cases hp : pat.isPrefixOf (c :: rest)
    · simp only [pyFind, if_pos hp, Option.some.injEq] at h
      omega
    · simp only [pyFind, if_neg hp, Option.map_eq_some'] at h
      obtain ⟨m, hm, rfl⟩ := h
      cases j with
      | zero => exact Bool.eq_false_iff.mpr hp
      | succ j' =>
        rw [List.drop_succ_cons]
        exact pyFind_some_least pat rest m hm j' (by omega)

theorem pyFind_none : ∀ (pat l : List Char), pyFind pat l = none →
    ∀ j, pat.isPrefixOf (l.drop j) = false
  | pat, [], h, j => by
    by_cases hp : pat = []
    · subst hp
      simp [pyFind] at h
    · cases pat with
      | nil => exact absurd rfl hp
      | cons a as => rw [List.drop_nil]; rfl
  | pat, c :: rest, h, j => by
    by_cases hp : pat.isPrefixOf (c :: rest)
    · simp [pyFind, hp] at h
    · simp only [pyFind, if_neg hp, Option.map_eq_none'] at h
      cases j with
      | zero => exact Bool.eq_false_iff.mpr hp
      | succ j' =>
        rw [List.drop_succ_cons]
        exact pyFind_none pat rest h j'

theorem occurs_iff_exists_drop (pat l : List Char) :
    (∃ p q, l = p ++ pat ++ q) ↔ ∃ n, pat.isPrefixOf (l.drop n) = true := by
  constructor
  · rintro ⟨p, q, rfl⟩
    refine ⟨p.length, ?_⟩
    rw [List.append_assoc, List.drop_left]
    exact (isPrefixOf_eq_true_iff pat _).mpr ⟨q, rfl⟩
  · rintro ⟨n, hn⟩
    obtain ⟨t, ht⟩ := (isPrefixOf_eq_true_iff pat _).mp hn
    refine ⟨l.take n, t, ?_⟩
    rw [List.append_assoc, ht, List.take_append_drop]

/- Distinct terms yield distinct hit strings. -/

theorem append_colon_inj : ∀ (a b x y : List Char),
    (∀ c ∈ a, c ≠ ':') → (∀ c ∈ b, c ≠ ':') →
    a ++ ':' :: ' ' :: x = b ++ ':' :: ' ' :: y → a = b
  | [], [], _, _, _, _, _ => rfl
  | [], d :: b', x, y, _, hb, h => by
    simp only [List.nil_append, List.cons_append, List.cons.injEq] at h
    exact absurd h.1.symm (hb d (List.mem_cons_self d b'))
  | d :: a', [], x, y, ha, _, h => by
    simp only [List.nil_append, List.cons_append, List.cons.injEq] at h
    exact absurd h.1 (ha d (List.mem_cons_self d a'))
  | d :: a', e :: b', x, y, ha, hb, h => by
    simp only [List.cons_append, List.cons.injEq] at h
    obtain ⟨rfl, h2⟩ := h
    rw [append_colon_inj a' b' x y (fun c hc => ha c (List.mem_cons_of_mem _ hc))
      (fun c hc => hb c (List.mem_cons_of_mem _ hc)) h2]

theorem mkHit_inj {i : Nat} {text : List Char} {t t' : String} {n n' : Nat}
    (ht : ∀ c ∈ t.data, c ≠ ':') (ht' : ∀ c ∈ t'.data, c ≠ ':')
    (h : mkHit i t text n = mkHit i t' text n') : t = t' := by
  have hd := congrArg String.data h
  simp only [mkHit, String.data_append] at hd
  have hd2 := List.append_cancel_left (List.append_cancel_left
    (List.append_cancel_left hd))
  rw [show ∀ s : List Char, (": " : String).data ++ s = ':' :: ' ' :: s from fun _ => rfl,
    show ∀ s : List Char, (": " : String).data ++ s = ':' :: ' ' :: s from fun _ => rfl] at hd2
  exact String.ext (append_colon_inj t.data t'.data _ _ ht ht' hd2)

theorem count_filterMap_mkHit : ∀ (i : Nat) (text : String) (ts : List String),
    ts.Nodup → (∀ t ∈ ts, ∀ c ∈ t.data, c ≠ ':') →
    ∀ term idx, term ∈ ts →
    pyFind (pyLower term.data) (pyLower text.data) = some idx →
    (ts.filterMap (fun t =>
      (pyFind (pyLower t.data) (pyLower text.data)).map
        (fun n => mkHit i t text.data n))).count (mkHit i term text.data idx) = 1
  | _, _, [], _, _, term, _, hmem, _ => absurd hmem (List.not_mem_nil term)
  | i, text, t :: ts', hnd, hnc, term, idx, hmem, hfind => by
    have hnd' : ts'.Nodup := (List.nodup_cons.mp hnd).2
    have htn : t ∉ ts' := (List.nodup_cons.mp hnd).1
    have hnc' : ∀ u ∈ ts', ∀ c ∈ u.data, c ≠ ':' :=
      fun u hu => hnc u (List.mem_cons_of_mem t hu)
    rw [List.filterMap_cons]
    rcases List.mem_cons.mp hmem with rfl | hmem'
    · simp only [hfind, Option.map_some']
      rw [List.count_cons_self]
      have hnotin : mkHit i term text.data idx ∉ ts'.filterMap (fun t =>
          (pyFind (pyLower t.data) (pyLower text.data)).map
            (fun n => mkHit i t text.data n)) := by
        intro hmem2
        obtain ⟨u, hu, hfu⟩ := List.mem_filterMap.mp hmem2
        obtain ⟨m, _, hmk⟩ := Option.map_eq_some'.mp hfu
        have heq : u = term := mkHit_inj (hnc' u hu)
          (hnc term (List.mem_cons_self term ts')) hmk
        exact htn (heq ▸ hu)
      rw [List.count_eq_zero.mpr hnotin]
    · have ih := count_filterMap_mkHit i text ts' hnd' hnc' term idx hmem' hfind
      have hne : t ≠ term := fun he => htn (he ▸ hmem')
      cases hft : pyFind (pyLower t.data) (pyLower text.data) with
      | none =>
        simp only [hft, Option.map_none']
        exact ih
      | some m =>
        simp only [hft, Option.map_some']
        rw [List.count_cons]
        have hbeq : (mkHit i t text.data m == mkHit i term text.data idx) = false := by
          rw [beq_eq_false_iff_ne]
          intro he
          exact hne (mkHit_inj (hnc t (List.mem_cons_self t ts')) (hnc' term hmem') he)
        rw [hbeq]
        simpa using ih

/-- C1: for a page ordinal and normalized text, a term of the fixed list is
recorded if and only if its lowered form occurs in the lowered text; the
recorded string is the formatted hit built from the window around the first
occurrence, and it is recorded exactly once for that term. -/
theorem indexer_contract (i : Nat) (text term : String) (hterm : term ∈ index_terms) :
    ((∃ idx, pyFind (pyLower term.data) (pyLower text.data) = some idx ∧
        mkHit i term text.data idx ∈ indexPage i text) ↔
      (∃ p q, pyLower text.data = p ++ pyLower term.data ++ q)) ∧
    (∀ idx, pyFind (pyLower term.data) (pyLower text.data) = some idx →
      (pyLower term.data).isPrefixOf ((pyLower text.data).drop idx) = true ∧
      (∀ j, j < idx → (pyLower term.data).isPrefixOf ((pyLower text.data).drop j) = false) ∧
      (indexPage i text).count (mkHit i term text.data idx) = 1) := by
  constructor
  · constructor
    · rintro ⟨idx, hfind, _⟩
      exact (occurs_iff_exists_drop _ _).mpr
        ⟨idx, pyFind_some_isPrefixOf _ _ idx hfind⟩
    · intro hocc
      obtain ⟨n, hn⟩ := (occurs_iff_exists_drop _ _).mp hocc
      cases hfind : pyFind (pyLower term.data) (pyLower text.data) with
      | none =>
        rw [pyFind_none _ _ hfind n] at hn
        exact absurd hn (by simp)
      | some idx =>
        refine ⟨idx, rfl, ?_⟩
        apply List.mem_filterMap.mpr
        exact ⟨term, hterm, by rw [hfind]; rfl⟩
  · intro idx hfind
    refine ⟨pyFind_some_isPrefixOf _ _ idx hfind,
      pyFind_some_least _ _ idx hfind, ?_⟩
    exact count_filterMap_mkHit i text index_terms (by decide) (by decide) term idx hterm hfind

/-- Witness for C1 at a concrete page and term. -/
theorem indexer_contract_check :
    ("TreeWalker" : String) ∈ index_terms ∧
    (((∃ idx, pyFind (pyLower (String.data "TreeWalker"))
          (pyLower (String.data "zz TreeWalker yy")) = some idx ∧
        mkHit 2 "TreeWalker" (String.data "zz TreeWalker yy") idx ∈
          indexPage 2 "zz TreeWalker yy") ↔
      (∃ p q, pyLower (String.data "zz TreeWalker yy") =
        p ++ pyLower (String.data "TreeWalker") ++ q)) ∧
     (∀ idx, pyFind (pyLower (String.data "TreeWalker"))
          (pyLower (String.data "zz TreeWalker yy")) = some idx →
       (pyLower (String.data "TreeWalker")).isPrefixOf
         ((pyLower (String.data "zz TreeWalker yy")).drop idx) = true ∧
       (∀ j, j < idx → (pyLower (String.data "TreeWalker")).isPrefixOf
         ((pyLower (String.data "zz TreeWalker yy")).drop j) = false) ∧
       (indexPage 2 "zz TreeWalker yy").count
         (mkHit 2 "TreeWalker" (String.data "zz TreeWalker yy") idx) = 1)) :=
  ⟨by decide, indexer_contract 2 "zz TreeWalker yy" "TreeWalker" (by decide)⟩
